import Mathlib

/-!
Shallow embedding of the build-identity and menu-dispatch logic of the
kg3dnav desktop shell, taken from `src-tauri/build.rs` and
`src-tauri/src/main.rs`, together with theorems settling the
specification's claims about that logic.

Machine integers (`u64`) are modelled as `Nat` with explicit bounds where
overflow matters; the digit loops contain no wrapping arithmetic, so the
`Nat` functions agree with the `u64` code on the whole `u64` range.
-/

/-- The remainder-to-character map of the base-36 digit loop:
remainders 0 to 9 map to `'0' + rem`, remainders 10 to 35 to
`'A' + (rem - 10)`. -/
def toBase36Digit (r : Nat) : Char :=
  if r ≤ 9 then Char.ofNat (48 + r) else Char.ofNat (65 + (r - 10))

/-- A `while value > 0` digit loop over base `b`, producing digits
least-significant first. `fuel` only bounds the iteration count so that the
recursion is structural; any fuel above the input is enough
(`digitLoopAux_extra`). -/
def digitLoopAux (b : Nat) (digit : Nat → Char) : Nat → Nat → List Char
  | 0, _ => []
  | fuel + 1, m => if m = 0 then [] else digit (m % b) :: digitLoopAux b digit fuel (m / b)

/-- The digit-accumulation loop shared by `format_build_number` (build.rs)
and `build_number_from_minutes` (main.rs), producing base-36 digits
least-significant first; the Rust code pushes then reverses. -/
def toBase36Rev (m : Nat) : List Char :=
  digitLoopAux 36 toBase36Digit (m + 1) m

/-- The full digit sequence (`candidate` in the Rust code):
most-significant digit first, and the single digit `'0'` for input `0`. -/
def digitsOf (m : Nat) : List Char :=
  if m = 0 then ['0'] else (toBase36Rev m).reverse

/-- `format_build_number` of `build.rs` (identical to the numeric branch of
`build_number_from_minutes` in `main.rs`): base-36 encode the minute count,
keep only the last five characters when the digit sequence is longer, and
left-pad with `'0'` to width five. -/
def format_build_number (m : Nat) : String :=
  let digits := digitsOf m
  let tail := if digits.length > 5 then digits.drop (digits.length - 5) else digits
  String.mk (List.replicate (5 - tail.length) '0' ++ tail)

/-- Rust's `u64::from_str` accepts one leading `'+'` before the digits;
this drops it when present. -/
def strip_plus (cs : List Char) : List Char :=
  if cs.head? = some '+' then cs.tail else cs

/-- Shallow model of `str::parse::<u64>`: an optional leading `'+'`, then a
non-empty run of ASCII decimal digits whose value fits in 64 bits; any other
input is a parse error (`none`). -/
def parse_u64 (s : String) : Option Nat :=
  let t := strip_plus s.data
  if t.isEmpty then none
  else if t.all Char.isDigit then
    let v := t.foldl (fun a c => a * 10 + (c.toNat - 48)) 0
    if v < 2 ^ 64 then some v else none
  else none

/-- `build_number_from_minutes` of `main.rs`: parse the minutes string as a
`u64` and encode it; on parse failure return the sentinel `"00000"`. -/
def build_number_from_minutes (s : String) : String :=
  match parse_u64 s with
  | some m => format_build_number m
  | none => "00000"

/-- `u64::MAX`. -/
def u64_max : Nat := 2 ^ 64 - 1

/-- `u64::saturating_mul`: clamped at `u64::MAX`, never wrapping. -/
def saturating_mul (a b : Nat) : Nat := min (a * b) u64_max

/-- The `BUILD_EPOCH` derivation in `build.rs` `main`:
`epoch_minutes.saturating_mul(60)`. -/
def epoch_seconds_of (m : Nat) : Nat := saturating_mul m 60

/-- The revision lookup in `build.rs` `main`: `env::var("GITHUB_SHA")`,
otherwise `env::var("GIT_COMMIT")`, otherwise the literal `"unknown"`.
The environment is modelled as a partial map from variable name to value. -/
def resolve_git_sha (env : String → Option String) : String :=
  match env "GITHUB_SHA" with
  | some v => v
  | none =>
    match env "GIT_COMMIT" with
    | some v => v
    | none => "unknown"

/-- The seven menu identifiers installed by `main.rs` `main`. -/
def menu_ids : List String :=
  ["about", "set_layout_concept", "set_layout_sphere", "set_layout_grid",
   "toggle_xray", "reset_camera", "toggle_sidebar"]

/-- The `on_menu_event` dispatch of `main.rs`, as the list of
(event-name, payload) emissions a given identifier produces: each table arm
emits exactly one event, the wildcard arm emits nothing. Unit payloads of
`emit` are `none`, string payloads `some`. -/
def on_menu_event (id : String) : List (String × Option String) :=
  if id = "about" then [("about", none)]
  else if id = "set_layout_concept" then [("set-layout", some "concept-centric")]
  else if id = "set_layout_sphere" then [("set-layout", some "sphere")]
  else if id = "set_layout_grid" then [("set-layout", some "grid")]
  else if id = "toggle_xray" then [("toggle-xray", none)]
  else if id = "reset_camera" then [("reset-camera", none)]
  else if id = "toggle_sidebar" then [("toggle-sidebar", none)]
  else []

/-- Decimal digits of `m`, least-significant first: the digit loop of the
decimal formatting of a `u64`. -/
def toDecRev (m : Nat) : List Char :=
  digitLoopAux 10 (fun r => Char.ofNat (48 + r)) (m + 1) m

/-- The decimal string representation of `m`, as produced by formatting a
`u64` with `format!`. -/
def decimalRepr (m : Nat) : String :=
  if m = 0 then "0" else String.mk (toDecRev m).reverse

/-- Membership in the character set `0`-`9`, `A`-`Z`. -/
def isB36 (c : Char) : Bool :=
  (48 ≤ c.toNat && c.toNat ≤ 57) || (65 ≤ c.toNat && c.toNat ≤ 90)

/-- Rust's `char::len_utf8`: the UTF-8 byte width of one scalar value. -/
def len_utf8 (c : Char) : Nat :=
  if c.toNat < 128 then 1
  else if c.toNat < 2048 then 2
  else if c.toNat < 65536 then 3 else 4

/-- UTF-8 byte length of a string given by its characters (Rust `str::len`). -/
def utf8Len (cs : List Char) : Nat := (cs.map len_utf8).sum

/-! ### Digit-loop lemmas -/

theorem digitLoopAux_extra (b : Nat) (hb : 2 ≤ b) (digit : Nat → Char) :
    ∀ m f₁ f₂, m < f₁ → m < f₂ →
      digitLoopAux b digit f₁ m = digitLoopAux b digit f₂ m := by
  intro m
  induction m using Nat.strong_induction_on with
  | _ m ih =>
    intro f₁ f₂ h₁ h₂
    match f₁, f₂ with
    | g₁ + 1, g₂ + 1 =>
      by_cases hm : m = 0
      · simp [digitLoopAux, hm]
      · have hdiv : m / b < m := Nat.div_lt_self (Nat.pos_of_ne_zero hm) (by omega)
        simp only [digitLoopAux, if_neg hm]
        rw [ih (m / b) hdiv g₁ g₂ (by omega) (by omega)]

theorem toBase36Rev_eq (m : Nat) :
    toBase36Rev m =
      if m = 0 then [] else toBase36Digit (m % 36) :: toBase36Rev (m / 36) := by
  by_cases hm : m = 0
  · simp [toBase36Rev, digitLoopAux, hm]
  · have hdiv : m / 36 < m := Nat.div_lt_self (Nat.pos_of_ne_zero hm) (by omega)
    unfold toBase36Rev
    simp only [digitLoopAux, if_neg hm]
    rw [digitLoopAux_extra 36 (by omega) toBase36Digit (m / 36) m (m / 36 + 1)
      hdiv (Nat.lt_succ_self _)]
    simp only [digitLoopAux]

theorem toDecRev_eq (m : Nat) :
    toDecRev m =
      if m = 0 then [] else Char.ofNat (48 + m % 10) :: toDecRev (m / 10) := by
  by_cases hm : m = 0
  · simp [toDecRev, digitLoopAux, hm]
  · have hdiv : m / 10 < m := Nat.div_lt_self (Nat.pos_of_ne_zero hm) (by omega)
    unfold toDecRev
    simp only [digitLoopAux, if_neg hm]
    rw [digitLoopAux_extra 10 (by omega) _ (m / 10) m (m / 10 + 1)
      hdiv (Nat.lt_succ_self _)]
    simp only [digitLoopAux]

theorem toBase36Digit_isB36 : ∀ r, r < 36 → isB36 (toBase36Digit r) = true := by
  decide

theorem mem_toBase36Rev : ∀ m c, c ∈ toBase36Rev m → isB36 c = true := by
  intro m
  induction m using Nat.strong_induction_on with
  | _ m ih =>
    intro c hc
    rw [toBase36Rev_eq] at hc
    by_cases hm : m = 0
    · simp [hm] at hc
    · have hdiv : m / 36 < m := Nat.div_lt_self (Nat.pos_of_ne_zero hm) (by omega)
      rw [if_neg hm, List.mem_cons] at hc
      rcases hc with hc | hc
      · exact hc ▸ toBase36Digit_isB36 (m % 36) (Nat.mod_lt m (by omega))
      · exact ih (m / 36) hdiv c hc

theorem mem_digitsOf (m : Nat) (c : Char) (hc : c ∈ digitsOf m) : isB36 c = true := by
  unfold digitsOf at hc
  by_cases hm : m = 0
  · rw [if_pos hm, List.mem_singleton] at hc
    subst hc; decide
  · rw [if_neg hm, List.mem_reverse] at hc
    exact mem_toBase36Rev m c hc

theorem digitsOf_length_pos (m : Nat) : 0 < (digitsOf m).length := by
  unfold digitsOf
  by_cases hm : m = 0
  · simp [hm]
  · rw [if_neg hm, List.length_reverse, toBase36Rev_eq, if_neg hm]
    simp

theorem length_toBase36Rev_gt : ∀ k m, 36 ^ k ≤ m → k < (toBase36Rev m).length := by
  intro k
  induction k with
  | zero =>
    intro m hm
    have hm0 : m ≠ 0 := by simpa using Nat.one_le_iff_ne_zero.mp hm
    rw [toBase36Rev_eq, if_neg hm0]
    simp
  | succ k ih =>
    intro m hm
    have hm0 : m ≠ 0 := by
      have h1 : 0 < 36 ^ (k + 1) := Nat.pow_pos (by omega)
      omega
    rw [toBase36Rev_eq, if_neg hm0, List.length_cons]
    have hdivk : 36 ^ k ≤ m / 36 := by
      rw [Nat.le_div_iff_mul_le (by omega)]
      calc 36 ^ k * 36 = 36 ^ (k + 1) := (pow_succ 36 k).symm
        _ ≤ m := hm
    exact Nat.succ_lt_succ (ih (m / 36) hdivk)

theorem toBase36Rev_eq_digits : ∀ m, toBase36Rev m = (Nat.digits 36 m).map toBase36Digit := by
  intro m
  induction m using Nat.strong_induction_on with
  | _ m ih =>
    by_cases hm : m = 0
    · simp [hm, toBase36Rev_eq]
    · have hdiv : m / 36 < m := Nat.div_lt_self (Nat.pos_of_ne_zero hm) (by omega)
      rw [toBase36Rev_eq, if_neg hm,
        Nat.digits_def' (by omega : (1 : ℕ) < 36) (Nat.pos_of_ne_zero hm),
        List.map_cons, ih (m / 36) hdiv]

/-! ### Claim theorems -/

/-- C4: the build-number encoding maps 0 to "00000", 35 to "0000Z" and
36 to "00010". -/
theorem format_build_number_anchor_values :
    format_build_number 0 = "00000" ∧ format_build_number 35 = "0000Z" ∧
      format_build_number 36 = "00010" := by
  refine ⟨by decide, by decide, by decide⟩

/-- C1: for every non-negative 64-bit minute count, the build-number encoding
is a string of length exactly 5 whose every character is in 0-9, A-Z; it is
given by a total function (`format_build_number`), so it is deterministic
with no failure path. -/
theorem build_number_shape (m : Nat) (_h : m < 2 ^ 64) :
    (format_build_number m).length = 5 ∧
      (format_build_number m).data.all isB36 = true := by
  simp only [format_build_number]
  set digits := digitsOf m with hd
  set tail := (if digits.length > 5 then digits.drop (digits.length - 5) else digits) with ht
  have htail_sub : ∀ c ∈ tail, c ∈ digits := by
    rw [ht]
    split
    · intro c hc; exact List.mem_of_mem_drop hc
    · intro c hc; exact hc
  have htail_le : tail.length ≤ 5 := by
    rw [ht]
    split
    · rw [List.length_drop]; omega
    · omega
  constructor
  · show (List.replicate (5 - tail.length) '0' ++ tail).length = 5
    rw [List.length_append, List.length_replicate]
    omega
  · show (List.replicate (5 - tail.length) '0' ++ tail).all isB36 = true
    rw [List.all_eq_true]
    intro c hc
    rcases List.mem_append.mp hc with hrep | htl
    · rw [List.eq_of_mem_replicate hrep]; decide
    · exact mem_digitsOf m c (hd ▸ htail_sub c htl)

/-- C1 witness: the shape property instantiated at minute count 123456. -/
theorem build_number_shape_witness :
    123456 < 2 ^ 64 ∧
      ((format_build_number 123456).length = 5 ∧
        (format_build_number 123456).data.all isB36 = true) :=
  ⟨by decide, build_number_shape 123456 (by decide)⟩

/-- C2: when the minute count is at least 36^5 — exactly when the natural
base-36 representation (`Nat.digits 36`, most-significant first) is longer
than 5 digits — the encoding keeps only the last 5 characters of that full
representation: high-order digits are dropped and the kept low-order digits
are unchanged. -/
theorem build_number_truncates (m : Nat) (h : 36 ^ 5 ≤ m) :
    digitsOf m = ((Nat.digits 36 m).map toBase36Digit).reverse ∧
      5 < (digitsOf m).length ∧
      format_build_number m =
        String.mk ((digitsOf m).drop ((digitsOf m).length - 5)) := by
  have hm : m ≠ 0 := by
    have h0 : (0 : ℕ) < 36 ^ 5 := by norm_num
    omega
  have hdig : digitsOf m = (toBase36Rev m).reverse := by
    unfold digitsOf; rw [if_neg hm]
  have hlen : 5 < (digitsOf m).length := by
    rw [hdig, List.length_reverse]
    exact length_toBase36Rev_gt 5 m h
  refine ⟨by rw [hdig, toBase36Rev_eq_digits], hlen, ?_⟩
  simp only [format_build_number]
  rw [if_pos hlen, List.length_drop]
  have h5 : (digitsOf m).length - ((digitsOf m).length - 5) = 5 := by omega
  rw [h5]
  simp

/-- C2 witness: truncation instantiated at 36^5, whose base-36 form is a one
followed by five zeros, so the encoding is "00000". -/
theorem build_number_truncates_witness :
    36 ^ 5 ≤ 60466176 ∧
      (digitsOf 60466176 = ((Nat.digits 36 60466176).map toBase36Digit).reverse ∧
        5 < (digitsOf 60466176).length ∧
        format_build_number 60466176 =
          String.mk ((digitsOf 60466176).drop ((digitsOf 60466176).length - 5))) :=
  ⟨by norm_num, build_number_truncates 60466176 (by norm_num)⟩

/-- C3: every string that does not parse as a non-negative `u64` is mapped by
`build_number_from_minutes` to the sentinel "00000"; the function is total, so
no error is raised or propagated. -/
theorem build_number_parse_failure (s : String) (h : parse_u64 s = none) :
    build_number_from_minutes s = "00000" := by
  unfold build_number_from_minutes
  rw [h]

/-- C3 witness: the sentinel on the concrete non-numeric input "abc". -/
theorem build_number_parse_failure_witness :
    parse_u64 "abc" = none ∧ build_number_from_minutes "abc" = "00000" :=
  ⟨by decide, build_number_parse_failure "abc" (by decide)⟩

/-- C5 counterexample: at the valid 64-bit minute count `2 ^ 64 - 1` the
multiplication saturates and `BUILD_EPOCH` is `u64::MAX`, which is congruent
to 15 modulo 60 — not a multiple of 60, contradicting the claim that the
derived seconds value is a multiple of 60 even when saturation occurs. -/
theorem epoch_seconds_saturation_breaks_mult60 :
    2 ^ 64 - 1 < 2 ^ 64 ∧
      epoch_seconds_of (2 ^ 64 - 1) % 60 = 15 ∧
      ¬ (60 ∣ epoch_seconds_of (2 ^ 64 - 1)) := by
  refine ⟨by decide, by decide, ?_⟩
  have h : epoch_seconds_of (2 ^ 64 - 1) % 60 = 15 := by decide
  omega

/-- C5 amended: whenever the multiplication does not saturate — that is, for
every minute count at most `u64::MAX / 60` — the derived seconds value is a
multiple of 60. -/
theorem epoch_seconds_mult60_unsaturated (m : Nat) (h : m ≤ u64_max / 60) :
    60 ∣ epoch_seconds_of m := by
  have hmax : u64_max = 18446744073709551615 := by norm_num [u64_max]
  rw [hmax] at h
  unfold epoch_seconds_of saturating_mul
  rw [hmax, Nat.min_def]
  split
  · exact ⟨m, Nat.mul_comm m 60⟩
  · omega

/-- C5 amended witness: the multiple-of-60 property at minute count 2. -/
theorem epoch_seconds_mult60_unsaturated_witness :
    2 ≤ u64_max / 60 ∧ 60 ∣ epoch_seconds_of 2 :=
  ⟨by decide, epoch_seconds_mult60_unsaturated 2 (by decide)⟩

/-- C6 counterexample: at the boundary minute count `u64::MAX / 60` itself no
clamping occurs — the result is `(u64::MAX / 60) * 60 = u64::MAX - 15`, not
the maximum representable value — contradicting the claim that for every
input at or above the boundary the result is clamped to `u64::MAX`. -/
theorem epoch_seconds_boundary_not_clamped :
    u64_max / 60 ≤ u64_max / 60 ∧
      epoch_seconds_of (u64_max / 60) = u64_max - 15 ∧
      epoch_seconds_of (u64_max / 60) ≠ u64_max := by
  refine ⟨Nat.le_refl _, by decide, by decide⟩

/-- C6 amended: the derived seconds value is exactly `m * 60` for every `m`
up to and including the boundary `u64::MAX / 60`, and is clamped to
`u64::MAX` — never wrapped modulo 2^64 — for every `m` strictly above that
boundary; the function is total, so no input panics. -/
theorem epoch_seconds_exact_or_clamped (m : Nat) :
    epoch_seconds_of m = if m ≤ u64_max / 60 then m * 60 else u64_max := by
  have hmax : u64_max = 18446744073709551615 := by norm_num [u64_max]
  unfold epoch_seconds_of saturating_mul
  rw [hmax, Nat.min_def]
  split <;> split <;> omega

/-- C7: the menu dispatch emits exactly one event, named "set-layout" with
payload "sphere", for the identifier "set_layout_sphere", and emits nothing
for any identifier outside the seven-entry table — a total no-op, never an
error. -/
theorem on_menu_event_dispatch :
    on_menu_event "set_layout_sphere" = [("set-layout", some "sphere")] ∧
      ∀ id : String, id ∉ menu_ids → on_menu_event id = [] := by
  refine ⟨by decide, ?_⟩
  intro id hid
  simp only [menu_ids, List.mem_cons, List.not_mem_nil, or_false, not_or] at hid
  obtain ⟨h1, h2, h3, h4, h5, h6, h7⟩ := hid
  simp [on_menu_event, h1, h2, h3, h4, h5, h6, h7]

/-- C7 witness: the unknown identifier "nonexistent" emits no event. -/
theorem on_menu_event_dispatch_witness :
    "nonexistent" ∉ menu_ids ∧ on_menu_event "nonexistent" = [] :=
  ⟨by decide, on_menu_event_dispatch.2 "nonexistent" (by decide)⟩

/-- C8: the revision identifier prefers the GITHUB_SHA environment source,
then GIT_COMMIT, and is the literal "unknown" whenever neither is set; the
resolution is a total function of the environment, so no error propagates. -/
theorem resolve_git_sha_order (env : String → Option String) :
    (∀ v, env "GITHUB_SHA" = some v → resolve_git_sha env = v) ∧
      (env "GITHUB_SHA" = none →
        ∀ v, env "GIT_COMMIT" = some v → resolve_git_sha env = v) ∧
      (env "GITHUB_SHA" = none → env "GIT_COMMIT" = none →
        resolve_git_sha env = "unknown") := by
  refine ⟨?_, ?_, ?_⟩
  · intro v hv; simp [resolve_git_sha, hv]
  · intro h0 v hv; simp [resolve_git_sha, h0, hv]
  · intro h1 h2; simp [resolve_git_sha, h1, h2]

/-- C8 witness: the resolution order on three concrete environments. -/
theorem resolve_git_sha_order_witness :
    resolve_git_sha (fun k => if k = "GITHUB_SHA" then some "a1" else some "b2") = "a1" ∧
      resolve_git_sha (fun k => if k = "GIT_COMMIT" then some "b2" else none) = "b2" ∧
      resolve_git_sha (fun _ => none) = "unknown" :=
  ⟨(resolve_git_sha_order _).1 "a1" (by decide),
   (resolve_git_sha_order _).2.1 (by decide) "b2" (by decide),
   (resolve_git_sha_order _).2.2 rfl rfl⟩

/-! ### Decimal round-trip lemmas for C9 -/

theorem decDigit_isDigit : ∀ r, r < 10 → (Char.ofNat (48 + r)).isDigit = true := by
  decide

theorem decDigit_toNat : ∀ r, r < 10 → (Char.ofNat (48 + r)).toNat = 48 + r := by
  decide

theorem mem_toDecRev : ∀ m c, c ∈ toDecRev m → c.isDigit = true := by
  intro m
  induction m using Nat.strong_induction_on with
  | _ m ih =>
    intro c hc
    rw [toDecRev_eq] at hc
    by_cases hm : m = 0
    · simp [hm] at hc
    · have hdiv : m / 10 < m := Nat.div_lt_self (Nat.pos_of_ne_zero hm) (by omega)
      rw [if_neg hm, List.mem_cons] at hc
      rcases hc with hc | hc
      · exact hc ▸ decDigit_isDigit (m % 10) (Nat.mod_lt m (by omega))
      · exact ih (m / 10) hdiv c hc

theorem foldl_toDecRev : ∀ m acc,
    ((toDecRev m).reverse).foldl (fun a c => a * 10 + (c.toNat - 48)) acc =
      acc * 10 ^ (toDecRev m).length + m := by
  intro m
  induction m using Nat.strong_induction_on with
  | _ m ih =>
    intro acc
    by_cases hm : m = 0
    · simp [hm, toDecRev_eq]
    · have hdiv : m / 10 < m := Nat.div_lt_self (Nat.pos_of_ne_zero hm) (by omega)
      rw [toDecRev_eq, if_neg hm, List.reverse_cons, List.foldl_append,
        ih (m / 10) hdiv acc]
      simp only [List.foldl_cons, List.foldl_nil, List.length_cons]
      rw [decDigit_toNat (m % 10) (Nat.mod_lt m (by omega)), pow_succ, ← Nat.mul_assoc]
      have h48 : 48 + m % 10 - 48 = m % 10 := by omega
      rw [h48]
      generalize acc * 10 ^ (toDecRev (m / 10)).length = q
      omega

theorem strip_plus_all_digits (cs : List Char) (h : ∀ c ∈ cs, c.isDigit = true) :
    strip_plus cs = cs := by
  cases cs with
  | nil => simp [strip_plus]
  | cons c rest =>
    have hc : c.isDigit = true := h c (List.mem_cons_self c rest)
    have hne : c ≠ '+' := by
      intro he
      rw [he] at hc
      exact absurd hc (by decide)
    simp [strip_plus, hne]

theorem parse_u64_decimalRepr (m : Nat) (h : m < 2 ^ 64) :
    parse_u64 (decimalRepr m) = some m := by
  by_cases hm : m = 0
  · subst hm; decide
  · have hdigs : ∀ c ∈ (toDecRev m).reverse, c.isDigit = true :=
      fun c hc => mem_toDecRev m c (List.mem_reverse.mp hc)
    have hne : (toDecRev m).reverse ≠ [] := by
      rw [toDecRev_eq, if_neg hm]
      simp
    unfold decimalRepr
    rw [if_neg hm]
    simp only [parse_u64]
    rw [strip_plus_all_digits _ hdigs]
    have hempty : ¬ (((toDecRev m).reverse).isEmpty = true) := by
      rw [List.isEmpty_iff]
      exact hne
    rw [if_neg hempty, if_pos (List.all_eq_true.mpr hdigs), foldl_toDecRev m 0]
    simp only [Nat.zero_mul, Nat.zero_add]
    rw [if_pos h]

/-- C9: the runtime fallback encoder agrees with the build-time encoder on
every valid input — applying `build_number_from_minutes` to the decimal
string of a 64-bit minute count gives exactly `format_build_number` of that
count. -/
theorem encoders_agree (m : Nat) (h : m < 2 ^ 64) :
    build_number_from_minutes (decimalRepr m) = format_build_number m := by
  unfold build_number_from_minutes
  rw [parse_u64_decimalRepr m h]

/-- C9 witness: agreement of the two encoders at minute count 42. -/
theorem encoders_agree_witness :
    42 < 2 ^ 64 ∧
      build_number_from_minutes (decimalRepr 42) = format_build_number 42 :=
  ⟨by decide, encoders_agree 42 (by decide)⟩

/-! ### Byte-level safety lemmas for C10 -/

theorem len_utf8_of_isB36 (c : Char) (h : isB36 c = true) : len_utf8 c = 1 := by
  simp only [isB36, Bool.or_eq_true, Bool.and_eq_true, decide_eq_true_eq] at h
  unfold len_utf8
  rcases h with ⟨h1, h2⟩ | ⟨h1, h2⟩ <;> rw [if_pos (by omega)]

theorem utf8Len_all_one (l : List Char) (h : ∀ c ∈ l, len_utf8 c = 1) :
    utf8Len l = l.length := by
  induction l with
  | nil => rfl
  | cons c cs ih =>
    simp only [utf8Len, List.map_cons, List.sum_cons, List.length_cons] at *
    rw [h c (List.mem_cons_self c cs), ih (fun x hx => h x (List.mem_cons_of_mem c hx))]
    omega

/-- C10: both encoders are panic-free on every input. Every character the
remainder map puts into the digit sequence `candidate` is a single-byte
ASCII character in 0-9, A-Z, so the UTF-8 byte length of `candidate` equals
its character count, and the byte index `candidate.len() - 5` used by the
slice equals the byte length of the first length-minus-five characters —
a valid character boundary inside the string. Both encoders are total Lean
functions of their input, so no evaluation can fail. -/
theorem encoder_slice_single_byte (m : Nat) :
    (digitsOf m).all (fun c => isB36 c && (len_utf8 c == 1)) = true ∧
      utf8Len (digitsOf m) = (digitsOf m).length ∧
      utf8Len ((digitsOf m).take ((digitsOf m).length - 5)) =
        (digitsOf m).length - 5 := by
  have hmem : ∀ c ∈ digitsOf m, isB36 c = true := fun c hc => mem_digitsOf m c hc
  have hone : ∀ c ∈ digitsOf m, len_utf8 c = 1 :=
    fun c hc => len_utf8_of_isB36 c (hmem c hc)
  refine ⟨?_, utf8Len_all_one _ hone, ?_⟩
  · rw [List.all_eq_true]
    intro c hc
    rw [Bool.and_eq_true]
    exact ⟨hmem c hc, by simp [hone c hc]⟩
  · have htake : ∀ c ∈ (digitsOf m).take ((digitsOf m).length - 5), len_utf8 c = 1 :=
      fun c hc => hone c (List.mem_of_mem_take hc)
    rw [utf8Len_all_one _ htake, List.length_take]
    exact Nat.min_eq_left (Nat.sub_le _ _)
